import Mathlib

/-!
Verification of the TurboLP streaming line-parsing pipeline (src/core.rs and
its bundled modules) against its natural-language specification.

The embedding models bytes as natural numbers (values 0..255 in practice),
files and lines as lists of bytes, and the multithreaded pipeline of
`run_streaming_parallel` as explicit state passing:

- the reader thread's terminator-delimited read loop becomes `splitLines`;
- a worker thread's loop body (UTF-8 check, line-ending normalization,
  `process_line_to_buf` call, blob flush check) becomes `workerStep`,
  folded over the sub-sequence of lines that worker happens to dequeue;
- the gzip sniffing of `open_maybe_gz_bufread` / `open_maybe_gz_read` /
  `is_gzip` becomes a decision on the first two bytes, with the
  decompressor left abstract as a `gunzip` parameter;
- `count_lines_any`'s chunked `memchr` scan becomes a sum over an
  arbitrary chunk decomposition of the stream;
- the join/teardown control flow at the end of `run_streaming_parallel`
  (including the early `??` returns) becomes a small trace-writer monad
  over `Except`, recording which joins happened before the error escaped.
-/

namespace TurboLP

/-- A byte of the input or output stream, modelled as a natural number. -/
abbrev Byte := Nat

/-- The line-terminator byte 0x0A. -/
def NL : Byte := 10

/-- The carriage-return byte 0x0D. -/
def CR : Byte := 13

/-- Embeds the worker's line-ending normalization (core.rs lines 117-122):
strip one trailing 0x0A if present, then strip one trailing 0x0D if present.
The two steps are sequential, not nested, exactly as in the source. -/
def normalizeLine (l : List Byte) : List Byte :=
  let l1 := if l.getLast? = some NL then l.dropLast else l
  if l1.getLast? = some CR then l1.dropLast else l1

/-- True of a continuation byte 0x80..0xBF, as in Rust's UTF-8 validation. -/
def isCont (b : Byte) : Bool := decide (0x80 ≤ b ∧ b ≤ 0xBF)

/-- Embeds the success predicate of `std::str::from_utf8` (core.rs line 116):
standard UTF-8 validation over the byte sequence, following the shortest-form
ranges Rust enforces (no overlong encodings, no surrogates, max U+10FFFF). -/
def validUtf8 : List Byte → Bool
  | [] => true
  | b :: rest =>
    if b ≤ 0x7F then validUtf8 rest
    else if 0xC2 ≤ b ∧ b ≤ 0xDF then
      match rest with
      | b2 :: rest2 => isCont b2 && validUtf8 rest2
      | [] => false
    else if b = 0xE0 then
      match rest with
      | b2 :: b3 :: rest3 => decide (0xA0 ≤ b2 ∧ b2 ≤ 0xBF) && isCont b3 && validUtf8 rest3
      | _ => false
    else if (0xE1 ≤ b ∧ b ≤ 0xEC) ∨ (0xEE ≤ b ∧ b ≤ 0xEF) then
      match rest with
      | b2 :: b3 :: rest3 => isCont b2 && isCont b3 && validUtf8 rest3
      | _ => false
    else if b = 0xED then
      match rest with
      | b2 :: b3 :: rest3 => decide (0x80 ≤ b2 ∧ b2 ≤ 0x9F) && isCont b3 && validUtf8 rest3
      | _ => false
    else if b = 0xF0 then
      match rest with
      | b2 :: b3 :: b4 :: rest4 =>
        decide (0x90 ≤ b2 ∧ b2 ≤ 0xBF) && isCont b3 && isCont b4 && validUtf8 rest4
      | _ => false
    else if 0xF1 ≤ b ∧ b ≤ 0xF3 then
      match rest with
      | b2 :: b3 :: b4 :: rest4 => isCont b2 && isCont b3 && isCont b4 && validUtf8 rest4
      | _ => false
    else if b = 0xF4 then
      match rest with
      | b2 :: b3 :: b4 :: rest4 =>
        decide (0x80 ≤ b2 ∧ b2 ≤ 0x8F) && isCont b3 && isCont b4 && validUtf8 rest4
      | _ => false
    else false

/-- Model of a `Parser` trait implementation (core.rs lines 18-23) of the
contract-conforming shape: given the normalized line, either append one
serialized record (the returned byte list, including whatever terminator the
implementation itself pushes) to the output buffer and report true, or append
nothing and report false. Both bundled modules have this shape. -/
abbrev ParserModel := List Byte → Option (List Byte)

/-- The bytes a worker appends for one received raw line: the transformation
runs only when the line decodes as UTF-8 (core.rs line 116), on the
normalized line; `none` means the line contributes nothing. -/
def emitsRecord (p : ParserModel) (line : List Byte) : Option (List Byte) :=
  if validUtf8 line then p (normalizeLine line) else none

/-- Blob byte-size flush threshold, `4 << 20` (core.rs line 79). -/
def BYTES_BLOB_TARGET : Nat := 4 <<< 20

/-- Blob record-count flush threshold (core.rs line 80). -/
def LINES_BLOB_MAX : Nat := 16384

/-- State of one worker thread (core.rs lines 110-141): the running local
emitted-record count, the current blob and its record count, and the blobs
sent so far to the blob queue, each paired with the value `lines_in_blob`
had at the moment it was flushed. -/
structure WState where
  localCount : Nat
  blob : List Byte
  linesInBlob : Nat
  sent : List (List Byte × Nat)
  deriving Repr, DecidableEq

/-- Worker state at thread start (core.rs lines 111-113). -/
def initW : WState := ⟨0, [], 0, []⟩

/-- Embeds the per-line transformation part of the worker loop body
(core.rs lines 116-127): if the line is valid UTF-8, normalize it and call
`process_line_to_buf`; on a true return the blob is extended by exactly the
bytes the transformation appended and both counters are incremented. The
core itself appends nothing after the call. -/
def workerProcess (p : ParserModel) (st : WState) (line : List Byte) : WState :=
  match emitsRecord p line with
  | some r =>
    { st with blob := st.blob ++ r, localCount := st.localCount + 1,
              linesInBlob := st.linesInBlob + 1 }
  | none => st

/-- Embeds the flush check after each line (core.rs lines 128-134): when the
blob has reached the byte target or the record-count maximum, it is sent (with
its record count, mirroring the `lines_in_blob` variable) and replaced by an
empty blob with a zeroed count. -/
def flushCheck (st : WState) : WState :=
  if BYTES_BLOB_TARGET ≤ st.blob.length ∨ LINES_BLOB_MAX ≤ st.linesInBlob then
    { st with sent := st.sent ++ [(st.blob, st.linesInBlob)], blob := [], linesInBlob := 0 }
  else st

/-- One iteration of the worker loop (core.rs lines 115-135). -/
def workerStep (p : ParserModel) (st : WState) (line : List Byte) : WState :=
  flushCheck (workerProcess p st line)

/-- A worker's final state after draining its share of the line queue. -/
def runWorker (p : ParserModel) (lines : List (List Byte)) : WState :=
  lines.foldl (workerStep p) initW

/-- The sequence of blobs a worker hands to the blob queue, in order: the
threshold-triggered flushes followed by the remainder blob, which is sent
exactly when non-empty (core.rs lines 137-139). -/
def workerOutput (p : ParserModel) (lines : List (List Byte)) : List (List Byte) :=
  let st := runWorker p lines
  if st.blob = [] then st.sent.map Prod.fst else st.sent.map Prod.fst ++ [st.blob]

/-- Embeds the reader thread's loop (core.rs lines 146-161): repeated
reads until the terminator byte split the stream into lines, each extending up to and
including the first terminator byte, with a final terminator-less remainder
still emitted as a line; an empty read ends the loop. -/
def splitLines : List Byte → List (List Byte)
  | [] => []
  | b :: bs =>
    if b = NL then [NL] :: splitLines bs
    else
      match splitLines bs with
      | [] => [[b]]
      | l :: ls => (b :: l) :: ls

/-- The gzip magic bytes 0x1F 0x8B (core.rs line 38). -/
def GZIP_MAGIC : List Byte := [0x1F, 0x8B]

/-- Number of bytes the initial 2-byte sniff read returns for a file with
these contents: `min 2 (file length)`. -/
def gzSniffLen (bs : List Byte) : Nat := min 2 bs.length

/-- Embeds the gzip detection shared by `open_maybe_gz_bufread`,
`open_maybe_gz_read` and `is_gzip` (core.rs lines 33-38, 51-55, 65-67):
the sniff read must have returned exactly 2 bytes and they must equal the
magic sequence. -/
def isGzipModel (bs : List Byte) : Bool :=
  decide (gzSniffLen bs = 2) && decide (bs.take 2 = GZIP_MAGIC)

/-- Embeds `open_maybe_gz_bufread` (core.rs lines 30-44): on a magic match the
handle is wrapped in a decompressor (the abstract `gunzip`), otherwise the raw
handle, rewound to offset 0, yields the file bytes unchanged. The result is
the byte stream downstream readers observe. -/
def openMaybeGzBufreadModel (gunzip : List Byte → List Byte) (bs : List Byte) : List Byte :=
  if isGzipModel bs then gunzip bs else bs

/-- Embeds `open_maybe_gz_read` (core.rs lines 48-60), identical decision and
result stream as the buffered variant. -/
def openMaybeGzReadModel (gunzip : List Byte → List Byte) (bs : List Byte) : List Byte :=
  if isGzipModel bs then gunzip bs else bs

/-- Embeds `count_lines_any` (core.rs lines 210-223): the decompressed stream
arrives in chunks (each `read` call's slice) and the terminator occurrences in
each chunk, counted by `memchr_iter`, are summed. -/
def countLinesAny (chunks : List (List Byte)) : Nat :=
  (chunks.map (fun c => c.count NL)).sum

/-- An observable event of the teardown sequence at the end of
`run_streaming_parallel` (core.rs lines 163-182). -/
inductive Ev where
  | joinReader
  | joinWorker (i : Nat)
  | recvCount (i : Nat)
  | joinWriter
  deriving Repr, DecidableEq

/-- A teardown computation: the trace of events performed so far, and either
the value produced or the error that escaped through a `?` operator. -/
abbrev Tear (α : Type) := List Ev × Except String α

/-- Sequencing with early exit, the model of the question-mark operator: once a step has
produced an error, later steps do not run and add nothing to the trace. -/
def tbind {α β : Type} : Tear α → (α → Tear β) → Tear β
  | (tr, Except.error e), _ => (tr, Except.error e)
  | (tr, Except.ok a), f => ((tr ++ (f a).1 : List Ev), (f a).2)

/-- Record one event and continue. -/
def tevent (ev : Ev) : Tear Unit := ([ev], Except.ok ())

/-- Lift a thread's own result (the value its closure returned) into the
teardown sequence; joining a panicking thread is out of scope, so a join
yields the closure's `Result` directly. -/
def tof {α : Type} (r : Except String α) : Tear α := ([], r)

/-- Joining every worker handle in order, ignoring their results
(core.rs lines 167-169, `let _ = h.flatten()`). -/
def joinAllWorkers (workers : Nat) : Tear Unit :=
  ((List.range workers).map Ev.joinWorker, Except.ok ())

/-- The count-aggregation loop (core.rs lines 172-177): `workers` receives on
the counts channel, summing the values that arrive (one per worker in a
normal run, modelled by the `counts` list). -/
def recvCounts (workers : Nat) (counts : List Nat) : Tear Nat :=
  ((List.range workers).map Ev.recvCount, Except.ok ((counts.take workers).sum))

/-- Embeds the join/teardown control flow of `run_streaming_parallel`
(core.rs lines 163-182): join the reader and propagate its error with `??`,
then join every worker, then drain the counts channel, then join the writer
and propagate its error, finally return the total. -/
def teardown (workers : Nat) (readerRes : Except String Unit)
    (counts : List Nat) (writerRes : Except String Unit) : Tear Nat :=
  tbind (tevent Ev.joinReader) (fun _ =>
  tbind (tof readerRes) (fun _ =>
  tbind (joinAllWorkers workers) (fun _ =>
  tbind (recvCounts workers counts) (fun total =>
  tbind (tevent Ev.joinWriter) (fun _ =>
  tbind (tof writerRes) (fun _ =>
  ([], Except.ok total)))))))

/-- The sub-sequence of lines, in queue order, dequeued by worker `w` under a
given distribution: `dist` pairs each line of the input, in order, with the
worker that happened to dequeue it (the line queue is FIFO and each line is
received by exactly one worker). -/
def workerLines {n : Nat} (dist : List (List Byte × Fin n)) (w : Fin n) : List (List Byte) :=
  (dist.filter (fun q => decide (q.2 = w))).map Prod.fst

/-- The number of lines of a list for which the transformation emits a record
when applied sequentially: lines failing UTF-8 decoding or on which
`process_line_to_buf` returns false contribute nothing. -/
def countEmits (p : ParserModel) (lines : List (List Byte)) : Nat :=
  lines.countP (fun l => (emitsRecord p l).isSome)

/-- The bytes one line contributes to the output: the emitted record, or
nothing. -/
def recordBytes (p : ParserModel) (l : List Byte) : List Byte :=
  (emitsRecord p l).getD []

/-- The sequential reference output: the transformation applied to each input
line in original order, successful records concatenated. -/
def refOutput (p : ParserModel) (lines : List (List Byte)) : List Byte :=
  (lines.map (recordBytes p)).flatten

/-- Embeds the writer thread (core.rs lines 89-96): each received blob is
appended verbatim, in receipt order. -/
def writerOutput (blobs : List (List Byte)) : List Byte := blobs.flatten

/-- The bytes reaching the output sink when exactly one worker runs: that
worker receives every line in FIFO order and the writer appends its blobs in
the order they were flushed. -/
def pipelineOutput1 (p : ParserModel) (lines : List (List Byte)) : List Byte :=
  writerOutput (workerOutput p lines)

/-- A transformation of the exact shape of the bundled modules
(web_access.rs lines 29-38, csv_dummy.rs lines 56-65): serialize the line to
a record if it parses, push the serialized bytes and then one terminator byte
onto the output buffer, and return true; otherwise leave the buffer untouched
and return false. -/
def moduleShaped (serialize : List Byte → Option (List Byte)) : ParserModel :=
  fun s => (serialize s).map (fun r => r ++ [NL])

/-- The total bytes a worker has produced so far: the blobs already sent, in
order, followed by the current blob. -/
def producedBytes (st : WState) : List Byte :=
  (st.sent.map Prod.fst).flatten ++ st.blob

/-! Helper lemmas about the reader's line splitting. -/

theorem splitLines_cons_ne_nil (b : Byte) (bs : List Byte) : splitLines (b :: bs) ≠ [] := by
  unfold splitLines
  by_cases hb : b = NL
  · simp [hb]
  · simp only [hb, if_false]
    cases splitLines bs <;> simp

theorem splitLines_eq_nil_iff (bs : List Byte) : splitLines bs = [] ↔ bs = [] := by
  cases bs with
  | nil => simp [splitLines]
  | cons b t => simp [splitLines_cons_ne_nil]

theorem splitLines_flatten (bs : List Byte) : (splitLines bs).flatten = bs := by
  induction bs with
  | nil => rfl
  | cons b t ih =>
    unfold splitLines
    by_cases hb : b = NL
    · simp [hb, ih]
    · simp only [hb, if_false]
      cases h : splitLines t with
      | nil =>
        have ht : t = [] := (splitLines_eq_nil_iff t).mp h
        simp [ht]
      | cons l ls =>
        have : (l :: ls).flatten = t := by rw [← h]; exact ih
        simp only [List.flatten_cons] at this ⊢
        simp [← this]

theorem splitLines_mem_ne_nil (bs : List Byte) :
    ∀ l ∈ splitLines bs, l ≠ [] := by
  induction bs with
  | nil => simp [splitLines]
  | cons b t ih =>
    unfold splitLines
    by_cases hb : b = NL
    · simp only [hb, if_true, List.mem_cons]
      rintro l (rfl | hl)
      · simp
      · exact ih l hl
    · simp only [hb, if_false]
      cases h : splitLines t with
      | nil => simp
      | cons l0 ls =>
        simp only [List.mem_cons]
        rintro l (rfl | hl)
        · simp
        · exact ih l (by rw [h]; exact List.mem_cons_of_mem _ hl)

theorem splitLines_dropLast_terminated (bs : List Byte) :
    ∀ l ∈ (splitLines bs).dropLast, l.getLast? = some NL := by
  induction bs with
  | nil => simp [splitLines]
  | cons b t ih =>
    unfold splitLines
    by_cases hb : b = NL
    · simp only [hb, if_true]
      cases h : splitLines t with
      | nil => simp
      | cons l0 ls =>
        rw [List.dropLast_cons₂]
        simp only [List.mem_cons]
        rintro l (rfl | hl)
        · simp [NL]
        · exact ih l (by rw [h]; exact hl)
    · simp only [hb, if_false]
      cases h : splitLines t with
      | nil => simp
      | cons l0 ls =>
        cases ls with
        | nil => simp
        | cons y ys =>
          rw [List.dropLast_cons₂]
          simp only [List.mem_cons]
          rintro l (rfl | hl)
          · have hl0 : l0.getLast? = some NL := by
              have := ih l0
              rw [h, List.dropLast_cons₂] at this
              exact this (List.mem_cons_self _ _)
            cases l0 with
            | nil => simp at hl0
            | cons c cs => rw [List.getLast?_cons_cons]; exact hl0
          · have := ih l
            rw [h, List.dropLast_cons₂] at this
            exact this (List.mem_cons_of_mem _ hl)

/-- C2: the reader's lines partition the byte stream exactly: their
concatenation restores the stream with no byte duplicated or dropped, every
line except possibly the last ends with the terminator 0x0A, a non-empty
stream yields at least one line (so a final incomplete line is still
emitted), and no line is empty. -/
theorem reader_line_partition (bs : List Byte) :
    (splitLines bs).flatten = bs
    ∧ (∀ l ∈ (splitLines bs).dropLast, l.getLast? = some NL)
    ∧ (bs ≠ [] → splitLines bs ≠ [])
    ∧ (∀ l ∈ splitLines bs, l ≠ []) := by
  refine ⟨splitLines_flatten bs, splitLines_dropLast_terminated bs, ?_, splitLines_mem_ne_nil bs⟩
  intro hbs
  exact fun h => hbs ((splitLines_eq_nil_iff bs).mp h)

/-- Witness for C2 at a concrete stream: two terminated lines followed by an
unterminated remainder. -/
theorem reader_line_partition_witness :
    (splitLines [97, 10, 13, 10, 98]).flatten = [97, 10, 13, 10, 98]
    ∧ splitLines [97, 10, 13, 10, 98] ≠ []
    ∧ ([97, 10] : List Byte).getLast? = some NL :=
  ⟨(reader_line_partition [97, 10, 13, 10, 98]).1,
   (reader_line_partition [97, 10, 13, 10, 98]).2.2.1 (by decide),
   (reader_line_partition [97, 10, 13, 10, 98]).2.1 [97, 10] (by decide)⟩

/-! Helper lemmas for the sequential counter. -/

theorem countLinesAny_flatten (chunks : List (List Byte)) :
    countLinesAny chunks = (chunks.flatten).count NL := by
  induction chunks with
  | nil => simp [countLinesAny]
  | cons c t ih =>
    simp only [countLinesAny, List.map_cons, List.sum_cons, List.flatten_cons,
      List.count_append]
    rw [← ih]
    rfl

theorem count_NL_eq_terminated_lines (bs : List Byte) :
    bs.count NL
      = ((splitLines bs).filter (fun l => decide (l.getLast? = some NL))).length := by
  induction bs with
  | nil => simp [splitLines]
  | cons b t ih =>
    unfold splitLines
    by_cases hb : b = NL
    · subst hb
      rw [List.count_cons_self]
      simp only [if_true, List.filter_cons]
      norm_num
      omega
    · rw [List.count_cons_of_ne (Ne.symm hb)]
      simp only [hb, if_false]
      cases h : splitLines t with
      | nil =>
        have ht : t = [] := (splitLines_eq_nil_iff t).mp h
        subst ht
        simp [splitLines, hb]
      | cons l0 ls =>
        have hl0 : l0 ≠ [] := splitLines_mem_ne_nil t l0 (by rw [h]; exact List.mem_cons_self _ _)
        obtain ⟨c, cs, rfl⟩ := List.exists_cons_of_ne_nil hl0
        rw [ih, h]
        simp only [List.filter_cons, List.getLast?_cons_cons]
        split <;> simp

/-- C9: `count_lines_any` returns exactly the number of terminator bytes in
the logical (decompressed) stream, whatever chunk decomposition the reads
produce, and that number is the number of terminator-ended lines of the
stream — a final line not ending in a terminator is not counted. -/
theorem count_lines_any_terminators (chunks : List (List Byte)) :
    countLinesAny chunks = (chunks.flatten).count NL
    ∧ countLinesAny chunks
        = ((splitLines chunks.flatten).filter (fun l => decide (l.getLast? = some NL))).length :=
  ⟨countLinesAny_flatten chunks,
   (countLinesAny_flatten chunks).trans (count_NL_eq_terminated_lines chunks.flatten)⟩

/-- C6: both open helpers hand downstream readers the decompressed stream
exactly when the file's first two bytes are the gzip magic pair, and otherwise
the raw bytes from the start of the file; the sniff succeeds (reads 2 bytes)
precisely when such a prefix can exist. -/
theorem open_maybe_gz_detects_magic (gunzip : List Byte → List Byte) (bs : List Byte) :
    (isGzipModel bs = true ↔ bs.take 2 = GZIP_MAGIC)
    ∧ openMaybeGzBufreadModel gunzip bs
        = (if bs.take 2 = GZIP_MAGIC then gunzip bs else bs)
    ∧ openMaybeGzReadModel gunzip bs
        = (if bs.take 2 = GZIP_MAGIC then gunzip bs else bs) := by
  have hlen : bs.take 2 = GZIP_MAGIC → gzSniffLen bs = 2 := by
    intro h
    have := congrArg List.length h
    simp only [List.length_take, GZIP_MAGIC, List.length_cons, List.length_nil] at this
    simpa [gzSniffLen] using this
  have hiff : isGzipModel bs = true ↔ bs.take 2 = GZIP_MAGIC := by
    constructor
    · intro h
      simp only [isGzipModel, Bool.and_eq_true, decide_eq_true_eq] at h
      exact h.2
    · intro h
      simp [isGzipModel, hlen h, h]
  refine ⟨hiff, ?_, ?_⟩ <;>
    by_cases h : bs.take 2 = GZIP_MAGIC
  · simp [openMaybeGzBufreadModel, hiff.mpr h, h]
  · have : isGzipModel bs = false := by
      cases hg : isGzipModel bs
      · rfl
      · exact absurd (hiff.mp hg) h
    simp [openMaybeGzBufreadModel, this, h]
  · simp [openMaybeGzReadModel, hiff.mpr h, h]
  · have : isGzipModel bs = false := by
      cases hg : isGzipModel bs
      · rfl
      · exact absurd (hiff.mp hg) h
    simp [openMaybeGzReadModel, this, h]

/-- C10: a file shorter than 2 bytes is treated as plain by the sniff shared
by `open_maybe_gz_bufread`, `open_maybe_gz_read` and `is_gzip`: the gzip
branch requires the sniff read to have returned exactly 2 bytes, so short
files are never wrapped in a decompressor and both open helpers return the
raw bytes. -/
theorem short_file_treated_as_plain (gunzip : List Byte → List Byte) (bs : List Byte)
    (h : bs.length < 2) :
    isGzipModel bs = false
    ∧ openMaybeGzBufreadModel gunzip bs = bs
    ∧ openMaybeGzReadModel gunzip bs = bs := by
  have hm : gzSniffLen bs ≠ 2 := by
    simp only [gzSniffLen]
    omega
  have hg : isGzipModel bs = false := by
    simp [isGzipModel, hm]
  simp [openMaybeGzBufreadModel, openMaybeGzReadModel, hg]

/-- Witness for C10: a 1-byte file starting with the first magic byte is
still treated as plain. -/
theorem short_file_treated_as_plain_witness :
    ([0x1F] : List Byte).length < 2
    ∧ isGzipModel [0x1F] = false
    ∧ openMaybeGzBufreadModel id [0x1F] = [0x1F]
    ∧ openMaybeGzReadModel id [0x1F] = [0x1F] :=
  ⟨by decide, short_file_treated_as_plain id [0x1F] (by decide)⟩

/-! Helper lemmas for the worker pool's local counts. -/

theorem flushCheck_localCount (st : WState) : (flushCheck st).localCount = st.localCount := by
  unfold flushCheck
  split <;> rfl

theorem workerProcess_localCount (p : ParserModel) (st : WState) (l : List Byte) :
    (workerProcess p st l).localCount
      = st.localCount + (if (emitsRecord p l).isSome then 1 else 0) := by
  unfold workerProcess
  cases emitsRecord p l <;> simp

theorem foldl_workerStep_localCount (p : ParserModel) (lines : List (List Byte)) (st : WState) :
    ((lines.foldl (workerStep p) st).localCount) = st.localCount + countEmits p lines := by
  induction lines generalizing st with
  | nil => simp [countEmits]
  | cons l t ih =>
    rw [List.foldl_cons, ih]
    simp only [workerStep, flushCheck_localCount, workerProcess_localCount, countEmits,
      List.countP_cons]
    split <;> omega

theorem runWorker_localCount (p : ParserModel) (lines : List (List Byte)) :
    (runWorker p lines).localCount = countEmits p lines := by
  unfold runWorker
  rw [foldl_workerStep_localCount]
  simp [initW]

theorem workerLines_cons {n : Nat} (l : List Byte) (w0 w : Fin n)
    (t : List (List Byte × Fin n)) :
    workerLines ((l, w0) :: t) w
      = if w0 = w then l :: workerLines t w else workerLines t w := by
  by_cases h : w0 = w <;> simp [workerLines, List.filter_cons, h]

theorem sum_workerLines_countEmits {n : Nat} (p : ParserModel)
    (dist : List (List Byte × Fin n)) :
    (∑ w : Fin n, countEmits p (workerLines dist w)) = countEmits p (dist.map Prod.fst) := by
  induction dist with
  | nil => simp [workerLines, countEmits]
  | cons q t ih =>
    obtain ⟨l, w0⟩ := q
    have key : ∀ w : Fin n,
        countEmits p (workerLines ((l, w0) :: t) w)
          = countEmits p (workerLines t w)
            + (if w0 = w then (if (emitsRecord p l).isSome then 1 else 0) else 0) := by
      intro w
      rw [workerLines_cons]
      by_cases h : w0 = w <;> simp [h, countEmits, List.countP_cons]
    rw [Finset.sum_congr rfl (fun w _ => key w), Finset.sum_add_distrib, ih,
      Finset.sum_ite_eq]
    simp only [Finset.mem_univ, if_true, List.map_cons, countEmits, List.countP_cons]

/-- C1: count conservation. For a worker count of at least 1 and any way the
FIFO line queue's contents (the lines the reader split out of the stream) can
be distributed among the workers, the total returned by
`run_streaming_parallel` — the sum of the per-worker local counts sent on the
counts channel — equals the number of lines for which the transformation
emits a record when applied to each UTF-8-decodable normalized line
sequentially; undecodable lines and lines on which it returns false
contribute nothing. -/
theorem run_streaming_parallel_count_conservation {n : Nat} (hn : 1 ≤ n)
    (p : ParserModel) (bs : List Byte) (dist : List (List Byte × Fin n))
    (hdist : dist.map Prod.fst = splitLines bs) :
    (∑ w : Fin n, (runWorker p (workerLines dist w)).localCount)
      = countEmits p (splitLines bs) := by
  rw [← hdist]
  simp only [runWorker_localCount]
  exact sum_workerLines_countEmits p dist

/-- Witness for C1: two workers share three lines (one of which is not valid
UTF-8 and one of which the transformation declines); the summed local counts
equal the sequential count. -/
theorem run_streaming_parallel_count_conservation_witness :
    (∑ w : Fin 2, (runWorker (fun l => if l = [97] then some [65, 10] else none)
        (workerLines [([97, 10], (0 : Fin 2)), ([255, 10], (1 : Fin 2)),
          ([97], (1 : Fin 2))] w)).localCount)
      = countEmits (fun l => if l = [97] then some [65, 10] else none)
          (splitLines [97, 10, 255, 10, 97])
    ∧ countEmits (fun l => if l = [97] then some [65, 10] else none)
          (splitLines [97, 10, 255, 10, 97]) = 2 :=
  ⟨run_streaming_parallel_count_conservation (by decide)
      (fun l => if l = [97] then some [65, 10] else none) [97, 10, 255, 10, 97]
      [([97, 10], (0 : Fin 2)), ([255, 10], (1 : Fin 2)), ([97], (1 : Fin 2))] (by decide),
   by decide⟩

/-! Helper lemmas for the blob flush invariant. -/

theorem workerStep_inv (p : ParserModel) (st : WState) (l : List Byte)
    (h3 : ∀ q ∈ st.sent, BYTES_BLOB_TARGET ≤ q.1.length ∨ LINES_BLOB_MAX ≤ q.2) :
    (workerStep p st l).blob.length < BYTES_BLOB_TARGET
    ∧ (workerStep p st l).linesInBlob < LINES_BLOB_MAX
    ∧ ∀ q ∈ (workerStep p st l).sent,
        BYTES_BLOB_TARGET ≤ q.1.length ∨ LINES_BLOB_MAX ≤ q.2 := by
  have hsent : (workerProcess p st l).sent = st.sent := by
    unfold workerProcess
    cases emitsRecord p l <;> rfl
  unfold workerStep flushCheck
  split
  case isTrue h =>
    refine ⟨by simp [BYTES_BLOB_TARGET], by simp [LINES_BLOB_MAX], ?_⟩
    intro q hq
    simp only [hsent, List.mem_append, List.mem_singleton] at hq
    rcases hq with hq | hq
    · exact h3 q hq
    · subst hq
      exact h
  case isFalse h =>
    push_neg at h
    exact ⟨h.1, h.2, fun q hq => h3 q (by rwa [hsent] at hq)⟩

theorem foldl_workerStep_inv (p : ParserModel) (lines : List (List Byte)) :
    ∀ st : WState,
      (st.blob.length < BYTES_BLOB_TARGET ∧ st.linesInBlob < LINES_BLOB_MAX
        ∧ ∀ q ∈ st.sent, BYTES_BLOB_TARGET ≤ q.1.length ∨ LINES_BLOB_MAX ≤ q.2) →
      ((lines.foldl (workerStep p) st).blob.length < BYTES_BLOB_TARGET
        ∧ (lines.foldl (workerStep p) st).linesInBlob < LINES_BLOB_MAX
        ∧ ∀ q ∈ (lines.foldl (workerStep p) st).sent,
            BYTES_BLOB_TARGET ≤ q.1.length ∨ LINES_BLOB_MAX ≤ q.2) := by
  induction lines with
  | nil => intro st hst; simpa using hst
  | cons l t ih =>
    intro st hst
    rw [List.foldl_cons]
    exact ih _ (workerStep_inv p st l hst.2.2)

/-- C3: blob flush boundaries. The thresholds are 4 MiB and 16,384; every
blob handed to the blob queue during the loop met one of the two thresholds
at the moment of its flush; the blob retained in the worker always stays
strictly below both thresholds (so a flush happens as soon as either
threshold is reached, whichever occurs first); and when the line supply is
exhausted a non-empty remainder blob is sent while an empty one is not. -/
theorem worker_blob_flush_boundary (p : ParserModel) (lines : List (List Byte)) :
    BYTES_BLOB_TARGET = 4194304 ∧ LINES_BLOB_MAX = 16384
    ∧ (∀ q ∈ (runWorker p lines).sent,
        BYTES_BLOB_TARGET ≤ q.1.length ∨ LINES_BLOB_MAX ≤ q.2)
    ∧ (runWorker p lines).blob.length < BYTES_BLOB_TARGET
    ∧ (runWorker p lines).linesInBlob < LINES_BLOB_MAX
    ∧ ((runWorker p lines).blob ≠ [] →
        workerOutput p lines
          = (runWorker p lines).sent.map Prod.fst ++ [(runWorker p lines).blob])
    ∧ ((runWorker p lines).blob = [] →
        workerOutput p lines = (runWorker p lines).sent.map Prod.fst) := by
  have hinv := foldl_workerStep_inv p lines initW
    ⟨by decide, by decide, by intro q hq; simp [initW] at hq⟩
  refine ⟨by decide, by decide, hinv.2.2, hinv.1, hinv.2.1, ?_, ?_⟩ <;>
    intro h <;> simp [workerOutput, h]

/-- Witness for C3: a transformation that declines every line leaves an empty
remainder, which is not sent; the retained blob is below both thresholds. -/
theorem worker_blob_flush_boundary_witness :
    (runWorker (fun _ => none) [[97, 10]]).blob.length < BYTES_BLOB_TARGET
    ∧ workerOutput (fun _ => none) [[97, 10]]
        = (runWorker (fun _ => none) [[97, 10]]).sent.map Prod.fst :=
  ⟨(worker_blob_flush_boundary (fun _ => none) [[97, 10]]).2.2.2.1,
   (worker_blob_flush_boundary (fun _ => none) [[97, 10]]).2.2.2.2.2.2 (by decide)⟩

/-- C4 as stated is refuted: the worker loop (core.rs lines 123-126) does not
append a line-terminator byte after a successful `process_line_to_buf` call.
With a contract-conforming transformation that appends the newline-free
record [65] and returns true, the blob after the call holds exactly the
transformation's bytes and not those bytes followed by a terminator. -/
theorem core_appends_terminator_counterexample :
    (workerProcess (fun _ => some [65]) initW [97]).blob = [65]
    ∧ (workerProcess (fun _ => some [65]) initW [97]).blob ≠ [] ++ [65] ++ [NL] := by
  constructor <;> decide

/-- C4 amended: the core appends nothing after a successful call — the blob
grows by exactly the bytes the transformation wrote — and for transformations
of the bundled modules' shape (serialize the record, push it, then push one
terminator byte) each successful call extends the blob by the newline-free
record followed by the terminator, and increments the local count. -/
theorem module_appends_terminator (serialize : List Byte → Option (List Byte))
    (hnl : ∀ s r, serialize s = some r → NL ∉ r)
    (st : WState) (line : List Byte) (r : List Byte)
    (hv : validUtf8 line = true) (hr : serialize (normalizeLine line) = some r) :
    (workerProcess (moduleShaped serialize) st line).blob = st.blob ++ (r ++ [NL])
    ∧ NL ∉ r
    ∧ (workerProcess (moduleShaped serialize) st line).localCount = st.localCount + 1 := by
  have he : emitsRecord (moduleShaped serialize) line = some (r ++ [NL]) := by
    simp [emitsRecord, hv, moduleShaped, hr]
  refine ⟨?_, hnl _ _ hr, ?_⟩ <;> simp [workerProcess, he]

/-- Witness for C4 (amended) at a concrete serializer and line. -/
theorem module_appends_terminator_witness :
    (workerProcess (moduleShaped (fun s => if s = [97] then some [65] else none))
        initW [97, 10]).blob = [] ++ ([65] ++ [NL])
    ∧ NL ∉ ([65] : List Byte)
    ∧ (workerProcess (moduleShaped (fun s => if s = [97] then some [65] else none))
        initW [97, 10]).localCount = 0 + 1 :=
  module_appends_terminator (fun s => if s = [97] then some [65] else none)
    (by
      intro s r h
      by_cases hs : s = [97]
      · simp only [hs, if_true, Option.some.injEq] at h
        subst h
        decide
      · simp [hs] at h)
    initW [97, 10] [65] (by decide) (by decide)

/-- C5 as stated is refuted: on the line [97, 13] — a final unterminated line
whose last byte is a carriage return not preceding any stripped terminator —
the worker normalization still strips the 0x0D, because the two strip steps
in core.rs lines 117-122 are sequential, not nested. -/
theorem normalize_bare_cr_counterexample :
    normalizeLine [97, CR] = [97] ∧ normalizeLine [97, CR] ≠ [97, CR] := by
  constructor <;> decide

/-- C5 amended: the normalization strips one trailing 0x0A if present and
then, independently, one trailing 0x0D if present - so a terminator-ended
line loses its terminator and an immediately preceding carriage return, but a final unterminated line ending in a bare
0x0D also has that 0x0D stripped. -/
theorem normalize_line_endings (s : List Byte)
    (h10 : s.getLast? ≠ some NL) (h13 : s.getLast? ≠ some CR) :
    normalizeLine (s ++ [NL]) = s
    ∧ normalizeLine (s ++ [CR, NL]) = s
    ∧ normalizeLine (s ++ [CR]) = s
    ∧ normalizeLine s = s := by
  refine ⟨?_, ?_, ?_, ?_⟩
  · simp [normalizeLine, List.getLast?_concat, List.dropLast_concat, h13]
  · have hsplit : s ++ [CR, NL] = (s ++ [CR]) ++ [NL] := by simp
    rw [hsplit]
    simp [normalizeLine, List.getLast?_concat, List.dropLast_concat]
  · simp [normalizeLine, List.getLast?_concat, List.dropLast_concat, NL, CR]
  · simp [normalizeLine, h10, h13]

/-- Witness for C5 (amended) on the line body [97]. -/
theorem normalize_line_endings_witness :
    normalizeLine [97, NL] = [97] ∧ normalizeLine [97, CR, NL] = [97]
    ∧ normalizeLine [97, CR] = [97] ∧ normalizeLine [97] = [97] := by
  have h := normalize_line_endings [97] (by decide) (by decide)
  simpa using h

/-! Helper lemmas for single-worker order preservation. -/

theorem producedBytes_flushCheck (st : WState) :
    producedBytes (flushCheck st) = producedBytes st := by
  unfold producedBytes flushCheck
  split
  · simp
  · rfl

theorem producedBytes_workerProcess (p : ParserModel) (st : WState) (l : List Byte) :
    producedBytes (workerProcess p st l) = producedBytes st ++ recordBytes p l := by
  unfold producedBytes workerProcess recordBytes
  cases emitsRecord p l <;> simp

theorem producedBytes_foldl (p : ParserModel) (lines : List (List Byte)) :
    ∀ st : WState,
      producedBytes (lines.foldl (workerStep p) st) = producedBytes st ++ refOutput p lines := by
  induction lines with
  | nil => intro st; simp [refOutput]
  | cons l t ih =>
    intro st
    rw [List.foldl_cons, ih, workerStep, producedBytes_flushCheck,
      producedBytes_workerProcess]
    simp [refOutput]

theorem workerOutput_flatten (p : ParserModel) (lines : List (List Byte)) :
    (workerOutput p lines).flatten = producedBytes (runWorker p lines) := by
  unfold workerOutput producedBytes
  by_cases h : (runWorker p lines).blob = []
  · simp [h]
  · simp [h]

/-- C7: with exactly one worker the pipeline is order-preserving: the single
worker receives every line in FIFO order, its blobs reach the writer in flush
order, the writer appends them verbatim, and the resulting output bytes equal
the sequential reference run - the transformation applied to each input line
in original order with the successful records concatenated. -/
theorem single_worker_order_preservation (p : ParserModel) (lines : List (List Byte)) :
    pipelineOutput1 p lines = refOutput p lines := by
  unfold pipelineOutput1 writerOutput
  rw [workerOutput_flatten]
  unfold runWorker
  rw [producedBytes_foldl]
  simp [producedBytes, initW]

/-- C8 as stated is refuted: with a failing reader (for instance an open
error) and a healthy writer, the teardown returns the reader's error having
joined only the reader - neither a worker join nor the writer join appears in
the trace, because the double `?` after `reader_handle.join()` returns early
(core.rs lines 163-165). -/
theorem reader_error_early_return_counterexample :
    (teardown 2 (Except.error "open input failed") [] (Except.ok ())).2
      = Except.error "open input failed"
    ∧ Ev.joinWriter ∉ (teardown 2 (Except.error "open input failed") [] (Except.ok ())).1
    ∧ Ev.joinWorker 0 ∉ (teardown 2 (Except.error "open input failed") [] (Except.ok ())).1 :=
  ⟨rfl, by decide, by decide⟩

/-- C8 amended: a Writer failure is reported only after the reader, every
worker and the writer have been joined and the counts drained; but a Line
Reader failure is returned immediately after joining the reader, before the
worker and writer threads are joined. A fully healthy run returns the sum of
the received counts after the same full join sequence. -/
theorem teardown_join_order (w : Nat) (counts : List Nat) (e : String) :
    ((teardown w (Except.error e) counts (Except.ok ())).1 = [Ev.joinReader]
      ∧ (teardown w (Except.error e) counts (Except.ok ())).2 = Except.error e)
    ∧ ((teardown w (Except.ok ()) counts (Except.error e)).1
        = [Ev.joinReader] ++ (List.range w).map Ev.joinWorker
            ++ (List.range w).map Ev.recvCount ++ [Ev.joinWriter]
      ∧ (teardown w (Except.ok ()) counts (Except.error e)).2 = Except.error e)
    ∧ (teardown w (Except.ok ()) counts (Except.ok ())).2
        = Except.ok ((counts.take w).sum) := by
  unfold teardown tbind tevent tof joinAllWorkers recvCounts
  simp

end TurboLP
